import Mathlib

/-!
Verification of the bibmanager repository (src/main.py) against its
natural-language specification.

The development shallowly embeds the algorithmic core of `main.py`:
the line-oriented BibTeX importer (`import_entries`, lines 303-338), the
result serializer and multi-mode match engine inside `search`
(lines 485-531), the field-registry loader (`load_bibtex_fields`,
lines 46-62) and the save flow of `entry_form_gui.save`
(lines 194-234) together with `add_entry_gui.on_save`.

Strings are embedded as `List Char` (`Str`); Python's `str` helpers
(`strip`, `rstrip`, `lower`, `split(sep, 1)`, substring `in`) are
reimplemented below with the same semantics on the ASCII inputs the
program manipulates (Python's default `strip` also removes some exotic
Unicode whitespace, which never occurs here; `lower` agrees with
`Char.toLower` on ASCII).  Python `dict`s (records, the store) are
embedded as association lists with first-occurrence update (`insertR`),
which coincides with `dict` semantics on every list built by `insertR`.
-/

/-- Characters, the embedding of Python `str`. -/
abbrev Str := List Char

/-- A record / a parsed entry: field name to value, insertion ordered. -/
abbrev Rcd := List (Str × Str)

/-- The whitespace characters Python's default `str.strip()` removes
(restricted to the ASCII range used by the program). -/
def wsChars : List Char := [' ', '\t', '\n', '\x0d', '\x0b', '\x0c']

/-- Python `s.lstrip(chars)`. -/
def pyLstrip (s : Str) (chars : List Char) : Str :=
  s.dropWhile (fun c => decide (c ∈ chars))

/-- Python `s.rstrip(chars)`. -/
def pyRstrip (s : Str) (chars : List Char) : Str :=
  (pyLstrip s.reverse chars).reverse

/-- Python `s.strip(chars)`: leading then trailing removal. -/
def stripCh (s : Str) (chars : List Char) : Str :=
  pyRstrip (pyLstrip s chars) chars

/-- Python `s.strip()` (default whitespace). -/
def pyStrip (s : Str) : Str := stripCh s wsChars

/-- Python `s.lower()` (ASCII). -/
def pyLower (s : Str) : Str := s.map Char.toLower

/-- Whether `pre` is a prefix of `s` (auxiliary for substring search). -/
def isPrefixL : Str → Str → Bool
  | [], _ => true
  | _ :: _, [] => false
  | a :: as, b :: bs => a = b && isPrefixL as bs

/-- Python `needle in hay` for strings: substring containment. -/
def pyIn (needle : Str) : Str → Bool
  | [] => needle.isEmpty
  | c :: rest => isPrefixL needle (c :: rest) || pyIn needle rest

/-- Python `s.split(c, 1)` when the separator occurs: `some (before, after)`
at the first occurrence of `c`, `none` when `c` is absent. -/
def splitOnce : Str → Char → Option (Str × Str)
  | [], _ => none
  | x :: xs, c =>
      if x = c then some ([], xs)
      else (splitOnce xs c).map (fun p => (x :: p.1, p.2))

/-- Python `s.split(sep)[0]` for a non-empty separator string: the prefix of
`s` before the first occurrence of `sep` (all of `s` when absent). -/
def splitFirstSub : Str → Str → Str
  | [], _ => []
  | c :: cs, sep => if isPrefixL sep (c :: cs) then [] else c :: splitFirstSub cs sep

/-- Splitting a string at every occurrence of a character (the line structure
a Python text file iteration produces, before the per-line `rstrip`). -/
def splitOnChar (c : Char) : Str → List Str
  | [] => [[]]
  | x :: xs =>
      if x = c then [] :: splitOnChar c xs
      else
        match splitOnChar c xs with
        | [] => [[x]]
        | y :: ys => (x :: y) :: ys

/-- Python `c.join(lines)` for a one-character separator. -/
def joinWith (c : Char) : List Str → Str
  | [] => []
  | [l] => l
  | l :: l' :: ls => l ++ c :: joinWith c (l' :: ls)

/-- Python dict assignment `d[k] = v` on an association list: the first
binding of `k` is replaced in place, otherwise `(k, v)` is appended. -/
def insertR {α : Type} : List (Str × α) → Str → α → List (Str × α)
  | [], k, v => [(k, v)]
  | p :: ps, k, v => if p.1 = k then (k, v) :: ps else p :: insertR ps k v

/-- Python `k in d` / `d[k]` on an association list: the value at the
first binding of `k`. -/
def lookupR {α : Type} : List (Str × α) → Str → Option α
  | [], _ => none
  | p :: ps, k => if p.1 = k then some p.2 else lookupR ps k

/-- Python `d.get(k, dflt)`. -/
def lookupGetD {α : Type} (m : List (Str × α)) (k : Str) (dflt : α) : α :=
  (lookupR m k).getD dflt

/-- The mandatory `entry_type` field name. -/
def etKey : Str := "entry_type".data

/-!
### The importer (`import_entries`, main.py lines 294-338)

`import_entries` reads `input.txt` as `[line.rstrip() for line in f]` and
runs a line-oriented state machine over the lines.  The machine's mutable
locals (`parsed_entries`, `entry`, `key`, `entry_type`, `inside_entry`)
become the fields of `PState`; one loop iteration becomes `pstep`.
In Python `key` and `entry_type` are `None` or a string, hence `Option Str`
(`entry_type` is only ever read at a flush, where it is never `None`
because a non-empty `entry` implies an earlier `@` line set it; `getD`
supplies the unreachable default).
-/

/-- The parser state of `import_entries`. -/
structure PState where
  parsed : List (Str × Rcd)
  entry : Rcd
  key : Option Str
  etype : Option Str
  inside : Bool
deriving DecidableEq

/-- The initial parser state (main.py lines 297-301). -/
def initPState : PState := ⟨[], [], none, none, false⟩

/-- The flush performed on an `@` line, a `}` line and at end of input
(`if entry and key: entry['entry_type'] = entry_type; parsed_entries.append(...)`). -/
def flushPending (st : PState) : List (Str × Rcd) :=
  match st.key with
  | some k =>
      if st.entry = [] ∨ k = [] then st.parsed
      else st.parsed ++ [(k, insertR st.entry etKey (st.etype.getD "None".data))]
  | none => st.parsed

/-- The value transformation of a field line (main.py line 323):
`value.strip().strip(',').strip('{}').strip()`. -/
def parseFieldValue (rhs : Str) : Str :=
  pyStrip (stripCh (stripCh (pyStrip rhs) [',']) ['{', '}'])

/-- The field-line split (main.py lines 321-323): split at the first `=`,
lowercase and trim the field name, transform the value. -/
def parseFieldLine (line : Str) : Option (Str × Str) :=
  (splitOnce line '=').map (fun p => (pyLower (pyStrip p.1), parseFieldValue p.2))

/-- One iteration of the `for line in lines` loop (main.py lines 303-334). -/
def pstep (st : PState) (rawLine : Str) : PState :=
  let line := pyStrip rawLine
  if line = [] then st
  else if line.head? = some '@' then
    let parsed := flushPending st
    match splitOnce (line.drop 1) '{' with
    | some (et, rest) =>
        let k := pyStrip (match splitOnce rest ',' with
                          | some q => q.1
                          | none => rest)
        ⟨parsed, [], some k, some et, true⟩
    | none => ⟨parsed, [], none, some "article".data, true⟩
  else if st.inside ∧ '=' ∈ line then
    match parseFieldLine line with
    | some fv => { st with entry := insertR st.entry fv.1 fv.2 }
    | none => st
  else if st.inside ∧ line.head? = some '}' then
    ⟨flushPending st, [], none, none, false⟩
  else st

/-- Running the state machine over a list of lines, with the end-of-input
flush (main.py lines 336-338). -/
def parseLines (lines : List Str) : List (Str × Rcd) :=
  flushPending (lines.foldl pstep initPState)

/-- The whole import parse: split the text into lines, `rstrip` each
(the file read on main.py line 295), run the machine. -/
def importParse (text : Str) : List (Str × Rcd) :=
  parseLines ((splitOnChar '\n' text).map (fun l => pyRstrip l wsChars))

/-!
### The serializer (inside `search`, main.py lines 522-530)

The result renderer produces the header `@<entry_type>{<key>,`, one line
`\t<field>\t\t = {<value>},` per field of the record present in the
persisted `field_order`, strips the trailing commas of the last line and
closes with `}`.  In the source the entry type is taken from the record
(`entry.get('entry_type', 'article')`); the spec's contract
`serialize(key, record, entryType, fieldOrder)` passes it explicitly, so
the embedding takes it as the argument and `renderEntry` specialises it.
-/

/-- The header line `f"@{entry_type}{{{k},"` (main.py line 524). -/
def headerLine (et k : Str) : Str := (('@' :: et) ++ ('{' :: k)) ++ [',']

/-- A field line `f"\t{f}\t\t = {{{entry[f]}}},"` (main.py line 527); the
comma flag distinguishes the last emitted line after comma stripping. -/
def mkFieldLine (f v : Str) (comma : Bool) : Str :=
  ('\t' :: f) ++ (['\t', '\t', ' ', '=', ' ', '{'] ++ v ++ ['}']) ++
    (if comma then [','] else [])

/-- `bibtex_lines[-1] = bibtex_lines[-1].rstrip(',')` (main.py line 528). -/
def stripLastComma : List Str → List Str
  | [] => []
  | [l] => [pyRstrip l [',']]
  | l :: l' :: ls => l :: stripLastComma (l' :: ls)

/-- The serializer's line list (main.py lines 523-529). -/
def serializeLines (et k : Str) (entry : Rcd) (field_order : List Str) : List Str :=
  stripLastComma
      (headerLine et k ::
        field_order.filterMap (fun f =>
          (lookupR entry f).map (fun v => mkFieldLine f v true)))
    ++ [['}']]

/-- The serialized text, `"\n".join(bibtex_lines)` (main.py line 530). -/
def serializeText (et k : Str) (entry : Rcd) (field_order : List Str) : Str :=
  joinWith '\n' (serializeLines et k entry field_order)

/-- The serializer exactly as the source calls it: the entry type read from
the record, `entry.get('entry_type', 'article')` (main.py line 522). -/
def renderEntry (k : Str) (entry : Rcd) (field_order : List Str) : Str :=
  serializeText (lookupGetD entry etKey "article".data) k entry field_order

/-!
### The match engine (inside `search`, main.py lines 485-515)

Python's `SequenceMatcher(None, a, b).ratio()` is the Ratcliff-Obershelp
similarity `2*M/(len a + len b)` where `M` totals the sizes of the
recursively chosen longest matching blocks (longest first, ties broken by
the lowest position in `a`, then in `b`).  `simScore` implements that
metric over `Rat` (`difflib`'s autojunk heuristic only activates on
sequences of length ≥ 200 and is not modelled).  The `re` module is
abstracted as an engine `Str → Str → Except Unit Bool`: `Except.error`
is a pattern that fails to compile (`re.error`), `Except.ok b` a
successful compile with `b` the truth of `re.search(query, value)`.
-/

/-- Length of the longest common prefix of two strings. -/
def lcpLen : Str → Str → Nat
  | a :: as, b :: bs => if a = b then lcpLen as bs + 1 else 0
  | _, _ => 0

/-- `find_longest_match` over the whole strings: the size-maximal common
block, ties broken by the smallest start in `a`, then in `b`. -/
def bestMatch (a b : Str) : Nat × Nat × Nat :=
  (List.range (a.length + 1)).foldl (fun best i =>
    (List.range (b.length + 1)).foldl (fun best j =>
      let s := lcpLen (a.drop i) (b.drop j)
      if s > best.2.2 then (i, j, s) else best) best) (0, 0, 0)

/-- Total matched characters of the recursive matching-block decomposition;
the fuel argument bounds the recursion depth (any fuel of at least
`a.length + 1` reaches the fixpoint since each recursive call strictly
shrinks its slice of `a`). -/
def matchTotal : Nat → Str → Str → Nat
  | 0, _, _ => 0
  | fuel + 1, a, b =>
      let m := bestMatch a b
      if m.2.2 = 0 then 0
      else
        m.2.2 + matchTotal fuel (a.take m.1) (b.take m.2.1) +
          matchTotal fuel (a.drop (m.1 + m.2.2)) (b.drop (m.2.1 + m.2.2))

/-- `SequenceMatcher(None, a, b).ratio()`: `2*M/T`, `1.0` on two empty
strings. -/
def simScore (a b : Str) : ℚ :=
  if a.length + b.length = 0 then 1
  else (2 * (matchTotal (a.length + 1) a b : ℚ)) / ((a.length + b.length : Nat) : ℚ)

/-- The per-field match evaluation of `search` (main.py lines 487-513):
`(matched, preview_match)` for one value against the query under the
selected modes and fuzzy sensitivity. -/
def searchMatch (eng : Str → Str → Except Unit Bool) (sel : List String) (t : ℚ)
    (value query : Str) : Bool × Bool :=
  let m1 : Bool :=
    if "case-sensitive" ∈ sel then
      if "exact" ∈ sel ∧ value = query then true
      else if "contains" ∈ sel ∧ pyIn query value = true then true
      else false
    else
      if "exact" ∈ sel ∧ pyLower value = pyLower query then true
      else if "contains" ∈ sel ∧ pyIn (pyLower query) (pyLower value) = true then true
      else false
  let m2 : Bool :=
    if "regex" ∈ sel then
      match eng query value with
      | Except.ok b => m1 || b
      | Except.error _ => m1
    else m1
  if "fuzzy" ∈ sel then
    if t ≤ simScore (pyLower value) (pyLower query) then (true, true) else (m2, false)
  else (m2, false)

/-- The preview text attached to a result row (main.py line 515):
`value if preview_match else ''`. -/
def previewOf (eng : Str → Str → Except Unit Bool) (sel : List String) (t : ℚ)
    (value query : Str) : Str :=
  if (searchMatch eng sel t value query).2 then value else []

/-- The result accumulation of `search` (main.py lines 485-515): every
record whose `field` value matches, in store order, with its preview. -/
def searchResults (eng : Str → Str → Except Unit Bool) (db : List (Str × Rcd))
    (field query : Str) (sel : List String) (t : ℚ) : List (Str × Rcd × Str) :=
  db.foldl (fun results kv =>
    let value := lookupGetD kv.2 field []
    let r := searchMatch eng sel t value query
    if r.1 then results ++ [(kv.1, kv.2, if r.2 then value else [])] else results) []

/-!
### The field registry loader (`load_bibtex_fields`, main.py lines 46-62)
-/

/-- The `seen`-set deduplication of main.py lines 61-62 (first occurrence
kept), with the set of already seen names as the accumulator. -/
def dedupFirstAux : List Str → List Str → List Str
  | _, [] => []
  | seen, x :: xs =>
      if x ∈ seen then dedupFirstAux seen xs
      else x :: dedupFirstAux (x :: seen) xs

/-- `seen = set(); [x for x in L if not (x in seen or seen.add(x))]`. -/
def dedupFirst (l : List Str) : List Str := dedupFirstAux [] l

/-- `load_bibtex_fields` (main.py lines 46-62) as a function of the
registry's field names (`list(bibtex_info['fields'].keys())`) and the
persisted `field_order` setting: the computation of the final
`BIB_FIELDS`.  Note line 60 filters the list rebuilt on line 59, which by
then only holds members of `field_order`. -/
def load_bibtex_fields (registry field_order : List Str) : List Str :=
  if field_order = [] then registry
  else
    let b1 := field_order.filter (fun f => decide (f ∈ registry))
    let b2 := b1 ++ b1.filter (fun f => decide (f ∉ field_order))
    dedupFirst b2

/-!
### The validator and the save flow (`entry_form_gui.save`, main.py
lines 194-234, and `add_entry_gui.on_save`, lines 256-260)
-/

/-- The required-field flattening of main.py lines 202-209: the first
alternative of an `" or "` requirement, else of an `" and/or "`
requirement, else the requirement itself. -/
def firstAltSave (rf : Str) : Str :=
  if pyIn " or ".data rf then splitFirstSub rf " or ".data
  else if pyIn " and/or ".data rf then splitFirstSub rf " and/or ".data
  else rf

/-- The missing-required-fields computation of main.py lines 210-215 over a
record of current form values: each flattened requirement is stripped, the
literal `key` requirement skipped, and the name collected when the stripped
looked-up value is empty.  (`fields[rf]` assumes the requirement names a
registered field; the absent case maps to the empty value.) -/
def validate (record : Rcd) (required : List Str) : List Str :=
  (required.map firstAltSave).filterMap (fun rf0 =>
    if pyStrip rf0 = "key".data then none
    else if pyStrip (lookupGetD record (pyStrip rf0) []) = [] then some (pyStrip rf0)
    else none)

/-- The first-alternative computation of `update_fields` (main.py
lines 162-163): `f.replace(' or ', '/').split('/')[0]`, i.e. the prefix up
to the first `/` or `" or "`. -/
def firstAltGUI : Str → Str
  | [] => []
  | c :: cs =>
      if c = '/' then []
      else if isPrefixL " or ".data (c :: cs) then []
      else c :: firstAltGUI cs

/-- Whether `update_fields` (main.py lines 164-175) leaves a field's entry
widget in state `normal`: the field is required or optional for the entry
type. -/
def applicableGUI (required optionalReq : List Str) (f : Str) : Bool :=
  decide (f ∈ required.map firstAltGUI) || decide (f ∈ optionalReq.map firstAltGUI)

/-- The state of the entry form when Save is pressed: widget contents plus
the configuration `entry_form_gui` was invoked with.  `fieldsF` lists
`(name, current text, state == 'normal')` per registered field;
`confirmMissing` is the user's answer to the missing-fields prompt. -/
structure FormState where
  keyInput : Str
  keyParam : Option Str
  showKey : Bool
  modeAdd : Bool
  etInput : Str
  required : List Str
  optionalReq : List Str
  fieldsF : List (Str × Str × Bool)
  confirmMissing : Bool

/-- `new_key` (main.py line 199). -/
def newKeyOf (fs : FormState) : Str :=
  if fs.showKey then pyStrip fs.keyInput else fs.keyParam.getD []

/-- The form's field values as a record, for the missing-field lookup. -/
def fieldsRecord (fields : List (Str × Str × Bool)) : Rcd :=
  fields.map (fun x => (x.1, x.2.1))

/-- The outcome of one press of Save. -/
inductive SaveOutcome where
  | errEmptyKey
  | errNoEntryType
  | errDuplicateKey
  | declinedMissing
  | saved (key : Str) (entry : Rcd)
deriving DecidableEq

/-- `entry_form_gui.save` in add mode followed by `add_entry_gui.on_save`
(main.py lines 194-234 and 256-260): the outcome and the store after the
press.  The checks run in source order: empty key, unset entry type, the
duplicate-key hard block (before any mutation), the missing-fields
confirmation; only then is `new_entry` built from the non-empty
normal-state widgets, `entry_type` attached, and the store updated. -/
def saveFlow (db : List (Str × Rcd)) (fs : FormState) : SaveOutcome × List (Str × Rcd) :=
  let new_key := newKeyOf fs
  let entry_type := pyStrip fs.etInput
  let missing := validate (fieldsRecord fs.fieldsF) fs.required
  if fs.showKey ∧ new_key = [] then (.errEmptyKey, db)
  else if entry_type = [] then (.errNoEntryType, db)
  else if fs.modeAdd ∧ fs.showKey ∧ (lookupR db new_key).isSome then (.errDuplicateKey, db)
  else if missing ≠ [] ∧ fs.confirmMissing = false then (.declinedMissing, db)
  else
    let new_entry :=
      insertR (fs.fieldsF.filterMap (fun x =>
        if x.2.1 ≠ [] ∧ x.2.2 = true then some (x.1, x.2.1) else none))
        etKey entry_type
    (.saved new_key new_entry, insertR db new_key new_entry)

/-!
### Lemmas about the Python string primitives
-/

theorem pyLstrip_nil (S : List Char) : pyLstrip [] S = [] := rfl

theorem pyLstrip_cons_of_not_mem {c : Char} {S : List Char} (h : c ∉ S) (l : Str) :
    pyLstrip (c :: l) S = c :: l := by
  simp [pyLstrip, List.dropWhile_cons, h]

theorem pyLstrip_eq_self {l : Str} {S : List Char}
    (h : ∀ c, l.head? = some c → c ∉ S) : pyLstrip l S = l := by
  cases l with
  | nil => rfl
  | cons c t => exact pyLstrip_cons_of_not_mem (h c rfl) t

theorem pyLstrip_replicate_append {c : Char} {S : List Char} (h : c ∈ S)
    (m : Nat) (xs : Str) :
    pyLstrip (List.replicate m c ++ xs) S = pyLstrip xs S := by
  induction m with
  | zero => simp
  | succ m ih => simp [List.replicate_succ, pyLstrip, List.dropWhile_cons, h]

theorem pyRstrip_nil (S : List Char) : pyRstrip [] S = [] := rfl

theorem pyRstrip_eq_self {l : Str} {S : List Char}
    (h : ∀ c, l.getLast? = some c → c ∉ S) : pyRstrip l S = l := by
  unfold pyRstrip
  rw [pyLstrip_eq_self (by intro c hc; exact h c (by rwa [List.head?_reverse] at hc)),
    List.reverse_reverse]

theorem pyRstrip_append_replicate {c : Char} {S : List Char} (h : c ∈ S)
    (xs : Str) (m : Nat) :
    pyRstrip (xs ++ List.replicate m c) S = pyRstrip xs S := by
  unfold pyRstrip
  rw [List.reverse_append, List.reverse_replicate, pyLstrip_replicate_append h]

theorem pyRstrip_concat_mem {c : Char} {S : List Char} (h : c ∈ S) (xs : Str) :
    pyRstrip (xs ++ [c]) S = pyRstrip xs S := by
  simpa using pyRstrip_append_replicate h xs 1

theorem pyStrip_eq_self {l : Str}
    (h1 : ∀ c, l.head? = some c → c ∉ wsChars)
    (h2 : ∀ c, l.getLast? = some c → c ∉ wsChars) : pyStrip l = l := by
  unfold pyStrip stripCh
  rw [pyLstrip_eq_self h1, pyRstrip_eq_self h2]

theorem pyLower_eq_nil_iff {s : Str} : pyLower s = [] ↔ s = [] := by
  simp [pyLower]

theorem pyIn_nil_left (s : Str) : pyIn [] s = true := by
  cases s <;> simp [pyIn, isPrefixL, List.isEmpty]

theorem splitOnce_append {c : Char} {xs : Str} (hc : c ∉ xs) (ys : Str) :
    splitOnce (xs ++ c :: ys) c = some (xs, ys) := by
  induction xs with
  | nil => simp [splitOnce]
  | cons a as ih =>
      have ha : a ≠ c := fun h => hc (h ▸ List.mem_cons_self a as)
      have : splitOnce (as ++ c :: ys) c = some (as, ys) :=
        ih (fun h => hc (List.mem_cons_of_mem a h))
      simp [splitOnce, ha, this]

theorem splitOnChar_of_not_mem {c : Char} {l : Str} (h : c ∉ l) :
    splitOnChar c l = [l] := by
  induction l with
  | nil => rfl
  | cons a as ih =>
      have ha : a ≠ c := fun hx => h (hx ▸ List.mem_cons_self a as)
      have := ih (fun hx => h (List.mem_cons_of_mem a hx))
      simp [splitOnChar, ha, this]

theorem splitOnChar_append_cons {c : Char} {l : Str} (h : c ∉ l) (rest : Str) :
    splitOnChar c (l ++ c :: rest) = l :: splitOnChar c rest := by
  induction l with
  | nil => simp [splitOnChar]
  | cons a as ih =>
      have ha : a ≠ c := fun hx => h (hx ▸ List.mem_cons_self a as)
      have htl := ih (fun hx => h (List.mem_cons_of_mem a hx))
      cases hsp : splitOnChar c (as ++ c :: rest) with
      | nil => rw [htl] at hsp; cases hsp
      | cons y ys => rw [htl] at hsp; cases hsp; simp [splitOnChar, ha, htl]

theorem splitOnChar_joinWith {c : Char} {ls : List Str}
    (h : ∀ l ∈ ls, c ∉ l) (hne : ls ≠ []) :
    splitOnChar c (joinWith c ls) = ls := by
  induction ls with
  | nil => cases hne rfl
  | cons l ls ih =>
      cases ls with
      | nil => exact splitOnChar_of_not_mem (h l (List.mem_cons_self l []))
      | cons l' ls' =>
          rw [joinWith, splitOnChar_append_cons (h l (List.mem_cons_self _ _)),
            ih (fun x hx => h x (List.mem_cons_of_mem l hx)) (by simp)]

/-!
### Lemmas about the association-list dict embedding
-/

theorem insertR_ne_nil {α : Type} (m : List (Str × α)) (k : Str) (v : α) :
    insertR m k v ≠ [] := by
  cases m with
  | nil => simp [insertR]
  | cons p ps => unfold insertR; split <;> simp

theorem mem_insertR {α : Type} {m : List (Str × α)} {k : Str} {v : α} {p : Str × α}
    (h : p ∈ insertR m k v) : p = (k, v) ∨ p ∈ m := by
  induction m with
  | nil => simp [insertR] at h; simp [h]
  | cons q qs ih =>
      unfold insertR at h
      split at h
      · rcases List.mem_cons.mp h with h | h
        · exact Or.inl h
        · exact Or.inr (List.mem_cons_of_mem q h)
      · rcases List.mem_cons.mp h with h | h
        · exact Or.inr (h ▸ List.mem_cons_self q qs)
        · rcases ih h with h | h
          · exact Or.inl h
          · exact Or.inr (List.mem_cons_of_mem q h)

theorem lookupR_insertR {α : Type} (m : List (Str × α)) (k : Str) (v : α) (g : Str) :
    lookupR (insertR m k v) g = if g = k then some v else lookupR m g := by
  induction m with
  | nil => by_cases h : g = k <;> simp [insertR, lookupR, h, Ne.symm]
  | cons p ps ih =>
      unfold insertR
      by_cases hpk : p.1 = k
      · by_cases hgk : g = k <;> simp [lookupR, hpk, hgk, Ne.symm]
      · by_cases hgp : p.1 = g
        · have hgk : ¬ g = k := fun h => hpk (hgp.trans h)
          simp [lookupR, hpk, hgp, hgk]
        · simp [lookupR, hpk, hgp, ih]

/-- Repeated dict assignment, as the parser's field accumulation performs it. -/
def insertAll (m : Rcd) (ps : List (Str × Str)) : Rcd :=
  ps.foldl (fun e p => insertR e p.1 p.2) m

theorem insertAll_ne_nil (ps : List (Str × Str)) (m : Rcd) (h : m ≠ [] ∨ ps ≠ []) :
    insertAll m ps ≠ [] := by
  induction ps generalizing m with
  | nil => simpa [insertAll] using h.resolve_right (by simp)
  | cons p ps ih =>
      unfold insertAll
      rw [List.foldl_cons]
      exact ih (insertR m p.1 p.2) (Or.inl (insertR_ne_nil m p.1 p.2))

theorem lookupR_insertAll_of_not_mem {ps : List (Str × Str)} {g : Str}
    (h : ∀ p ∈ ps, p.1 ≠ g) (m : Rcd) :
    lookupR (insertAll m ps) g = lookupR m g := by
  induction ps generalizing m with
  | nil => rfl
  | cons p ps ih =>
      unfold insertAll
      rw [List.foldl_cons]
      have := ih (fun q hq => h q (List.mem_cons_of_mem p hq)) (insertR m p.1 p.2)
      unfold insertAll at this
      rw [this, lookupR_insertR]
      have hpg : ¬ g = p.1 := fun hx => h p (List.mem_cons_self p ps) hx.symm
      simp [hpg]

theorem lookupR_insertAll_of_agree {ps : List (Str × Str)} {g : Str} {v : Str}
    (hall : ∀ p ∈ ps, p.1 = g → p.2 = v) (hex : ∃ p ∈ ps, p.1 = g) (m : Rcd) :
    lookupR (insertAll m ps) g = some v := by
  induction ps generalizing m with
  | nil => rcases hex with ⟨p, hp, _⟩; cases hp
  | cons p ps ih =>
      unfold insertAll
      rw [List.foldl_cons]
      by_cases hps : ∃ q ∈ ps, q.1 = g
      · exact ih (fun q hq => hall q (List.mem_cons_of_mem p hq)) hps (insertR m p.1 p.2)
      · have hpg : p.1 = g := by
          rcases hex with ⟨q, hq, hqg⟩
          rcases List.mem_cons.mp hq with h | h
          · exact h ▸ hqg
          · exact absurd ⟨q, h, hqg⟩ hps
        have hpv : p.2 = v := hall p (List.mem_cons_self p ps) hpg
        have hnone : ∀ q ∈ ps, q.1 ≠ g := fun q hq hqg => hps ⟨q, hq, hqg⟩
        have := lookupR_insertAll_of_not_mem hnone (insertR m p.1 p.2)
        unfold insertAll at this
        rw [this, lookupR_insertR]
        simp [hpg, hpv]

/-!
### Edge-character helpers
-/

theorem head?_append_or (l1 l2 : Str) : (l1 ++ l2).head? = l1.head?.or l2.head? := by
  cases l1 <;> simp

theorem getLast?_append_or (l1 l2 : Str) : (l1 ++ l2).getLast? = l2.getLast?.or l1.getLast? := by
  rw [← List.head?_reverse, List.reverse_append, head?_append_or,
    List.head?_reverse, List.head?_reverse]

theorem head?_replicate (m : Nat) (c : Char) :
    (List.replicate m c).head? = if m = 0 then none else some c := by
  cases m <;> simp [List.replicate_succ]

theorem getLast?_replicate (m : Nat) (c : Char) :
    (List.replicate m c).getLast? = if m = 0 then none else some c := by
  rw [← List.head?_reverse, List.reverse_replicate, head?_replicate]

/-- Whether an edge character (as an `Option`) is neither whitespace, a
brace, nor a comma. -/
def tameEdge : Option Char → Bool
  | none => true
  | some c => decide (c ∉ wsChars) && decide (c ≠ '{') && decide (c ≠ '}') && decide (c ≠ ',')

/-- A value whose first and last characters (when any) are not whitespace,
braces, or commas. -/
def plainCore (core : Str) : Bool := tameEdge core.head? && tameEdge core.getLast?

theorem tameEdge_spec {o : Option Char} (h : tameEdge o = true) :
    ∀ c, o = some c → c ∉ wsChars ∧ c ≠ '{' ∧ c ≠ '}' ∧ c ≠ ',' := by
  intro c hc
  subst hc
  simpa [tameEdge, and_assoc] using h

theorem head_armored {c1 c2 c3 : Char} {core : Str} {P : Char → Prop} (m n j : Nat)
    (h1 : P c1) (h2 : P c2) (h3 : P c3)
    (hcore : ∀ d, core.head? = some d → P d) :
    ∀ c, (List.replicate m c1 ++ core ++
        (List.replicate n c2 ++ List.replicate j c3)).head? = some c → P c := by
  intro c hc
  cases m with
  | succ m => simp [List.replicate_succ] at hc; exact hc ▸ h1
  | zero =>
      simp only [List.replicate, List.nil_append] at hc
      cases core with
      | cons d core' => simp at hc; exact hc ▸ hcore d rfl
      | nil =>
          simp only [List.nil_append] at hc
          cases n with
          | succ n => simp [List.replicate_succ] at hc; exact hc ▸ h2
          | zero =>
              simp only [List.replicate, List.nil_append] at hc
              cases j with
              | succ j => simp [List.replicate_succ] at hc; exact hc ▸ h3
              | zero => simp at hc

theorem getLast_armored {c1 c2 c3 : Char} {core : Str} {P : Char → Prop} (m n j : Nat)
    (h1 : P c1) (h2 : P c2) (h3 : P c3)
    (hcore : ∀ d, core.getLast? = some d → P d) :
    ∀ c, (List.replicate m c1 ++ core ++
        (List.replicate n c2 ++ List.replicate j c3)).getLast? = some c → P c := by
  intro c hc
  rw [← List.head?_reverse, List.reverse_append, List.reverse_append,
    List.reverse_append, List.reverse_replicate, List.reverse_replicate,
    List.reverse_replicate] at hc
  have hcore' : ∀ d, core.reverse.head? = some d → P d := by
    intro d hd
    exact hcore d (by rwa [List.head?_reverse] at hd)
  cases j with
  | succ j => simp [List.replicate_succ] at hc; exact hc ▸ h3
  | zero =>
      simp only [List.replicate, List.nil_append] at hc
      cases n with
      | succ n => simp [List.replicate_succ] at hc; exact hc ▸ h2
      | zero =>
          simp only [List.replicate, List.nil_append] at hc
          rcases hrev : core.reverse with _ | ⟨d, t⟩
          · rw [hrev, List.nil_append] at hc
            cases m with
            | succ m => simp [List.replicate_succ] at hc; exact hc ▸ h1
            | zero => simp at hc
          · rw [hrev] at hc
            simp at hc
            exact hc ▸ hcore' d (by rw [hrev]; rfl)

theorem pyStrip_armored {core : Str} (m n j : Nat)
    (hh : tameEdge core.head? = true) (hl : tameEdge core.getLast? = true) :
    pyStrip (List.replicate m '{' ++ core ++ (List.replicate n '}' ++ List.replicate j ',')) =
      List.replicate m '{' ++ core ++ (List.replicate n '}' ++ List.replicate j ',') := by
  apply pyStrip_eq_self
  · exact head_armored m n j (by decide) (by decide) (by decide)
      (fun d hd => (tameEdge_spec hh d hd).1)
  · exact getLast_armored m n j (by decide) (by decide) (by decide)
      (fun d hd => (tameEdge_spec hl d hd).1)

theorem head_armored_front {c1 c2 c3 : Char} {core : Str} {P : Char → Prop} (m n j : Nat)
    (h1 : P c1) (h2 : P c2)
    (hcore : ∀ d, core.head? = some d → P d)
    (hnz : ¬(m = 0 ∧ core = [] ∧ n = 0)) :
    ∀ c, (List.replicate m c1 ++ core ++
        (List.replicate n c2 ++ List.replicate j c3)).head? = some c → P c := by
  intro c hc
  cases m with
  | succ m => simp [List.replicate_succ] at hc; exact hc ▸ h1
  | zero =>
      simp only [List.replicate, List.nil_append] at hc
      cases core with
      | cons d core' => simp at hc; exact hc ▸ hcore d rfl
      | nil =>
          simp only [List.nil_append] at hc
          cases n with
          | succ n => simp [List.replicate_succ] at hc; exact hc ▸ h2
          | zero => exact absurd ⟨rfl, rfl, rfl⟩ hnz

theorem stripComma_armored {core : Str} (m n j : Nat)
    (hh : tameEdge core.head? = true) (hl : tameEdge core.getLast? = true) :
    stripCh (List.replicate m '{' ++ core ++ (List.replicate n '}' ++ List.replicate j ',')) [','] =
      List.replicate m '{' ++ core ++ List.replicate n '}' := by
  by_cases hz : m = 0 ∧ core = [] ∧ n = 0
  · obtain ⟨hm, hc0, hn⟩ := hz
    subst hm hc0 hn
    simp only [List.replicate, List.nil_append, List.append_nil]
    unfold stripCh
    rw [(List.append_nil (List.replicate j ',')).symm,
      pyLstrip_replicate_append (by decide), pyLstrip_nil, pyRstrip_nil]
  · unfold stripCh
    rw [pyLstrip_eq_self (head_armored_front (P := fun c => c ∉ ([','] : List Char)) m n j
      (by decide) (by decide)
      (fun d hd hmem => (tameEdge_spec hh d hd).2.2.2 (by simpa using hmem)) hz)]
    rw [show List.replicate m '{' ++ core ++ (List.replicate n '}' ++ List.replicate j ',') =
          (List.replicate m '{' ++ core ++ List.replicate n '}') ++ List.replicate j ','
        by simp [List.append_assoc]]
    rw [pyRstrip_append_replicate (by decide)]
    apply pyRstrip_eq_self
    intro c hc
    rw [show List.replicate m '{' ++ core ++ List.replicate n '}' =
          List.replicate m '{' ++ core ++ (List.replicate n '}' ++ List.replicate 0 '}')
        by simp] at hc
    exact getLast_armored (P := fun c => c ∉ ([','] : List Char)) m n 0
      (by decide) (by decide) (by decide)
      (fun d hd hmem => (tameEdge_spec hl d hd).2.2.2 (by simpa using hmem)) c hc

theorem stripBraces_armored {core : Str} (m n : Nat)
    (hh : tameEdge core.head? = true) (hl : tameEdge core.getLast? = true) :
    stripCh (List.replicate m '{' ++ core ++ List.replicate n '}') ['{', '}'] = core := by
  unfold stripCh
  rw [show List.replicate m '{' ++ core ++ List.replicate n '}' =
        List.replicate m '{' ++ (core ++ List.replicate n '}') by simp [List.append_assoc],
    pyLstrip_replicate_append (by decide)]
  cases core with
  | nil =>
      simp only [List.nil_append]
      rw [(List.append_nil (List.replicate n '}')).symm,
        pyLstrip_replicate_append (by decide), pyLstrip_nil, pyRstrip_nil]
  | cons d core' =>
      have hd : d ∉ (['{', '}'] : List Char) := by
        intro hmem
        rcases (tameEdge_spec hh d rfl) with ⟨_, h2, h3, _⟩
        simp only [List.mem_cons, List.mem_singleton, List.not_mem_nil, or_false] at hmem
        rcases hmem with h | h
        · exact h2 h
        · exact h3 h
      rw [List.cons_append, pyLstrip_cons_of_not_mem hd,
        ← List.cons_append, pyRstrip_append_replicate (by decide)]
      apply pyRstrip_eq_self
      intro c hc
      rcases (tameEdge_spec hl c hc) with ⟨_, h2, h3, _⟩
      intro hmem
      simp only [List.mem_cons, List.mem_singleton, List.not_mem_nil, or_false] at hmem
      rcases hmem with h | h
      · exact h2 h
      · exact h3 h

/-!
### Claim C2
-/

/-- C2 counterexample: inside an entry, the right-hand side `{{X}},` does
not yield the value `{X}` as the claim states; the parser's
`strip(',').strip('{}')` removes every leading/trailing brace character,
yielding `X`. -/
theorem parse_field_value_double_brace :
    parseFieldValue ['{', '{', 'X', '}', '}', ','] = ['X'] ∧
      (['X'] : Str) ≠ ['{', 'X', '}'] := by decide

/-- C2 (amended): a line containing `=` inside an entry is split at the
first `=`; the field name is lowercased and trimmed; the value is the
right-hand side trimmed of surrounding whitespace, then of every leading
and trailing comma, then of every leading and trailing brace character
(however many layers, balanced or not), then of whitespace again — so a
value armored in any number of braces and trailing commas reduces to its
brace-, comma- and whitespace-free core, and `{{X}},` yields `X`. -/
theorem parse_field_line_spec :
    (∀ fld rhs : Str, '=' ∉ fld →
      parseFieldLine (fld ++ '=' :: rhs) =
        some (pyLower (pyStrip fld), parseFieldValue rhs))
    ∧ (∀ (core : Str) (m n j : Nat), plainCore core = true →
        parseFieldValue (List.replicate m '{' ++ core ++
          (List.replicate n '}' ++ List.replicate j ',')) = core)
    ∧ parseFieldValue ['{', '{', 'X', '}', '}', ','] = ['X'] := by
  refine ⟨?_, ?_, by decide⟩
  · intro fld rhs h
    unfold parseFieldLine
    rw [splitOnce_append h]
    rfl
  · intro core m n j hpc
    have hpc' := hpc
    rw [plainCore, Bool.and_eq_true] at hpc'
    have hh : tameEdge core.head? = true := hpc'.1
    have hl : tameEdge core.getLast? = true := hpc'.2
    unfold parseFieldValue
    rw [pyStrip_armored m n j hh hl, stripComma_armored m n j hh hl,
      stripBraces_armored m n hh hl]
    exact pyStrip_eq_self (fun c hc => (tameEdge_spec hh c hc).1)
      (fun c hc => (tameEdge_spec hl c hc).1)

/-!
### Claim C3
-/

/-- C3: the registry loader drops registered fields that are absent from a
non-empty persisted `field_order` instead of appending them.  Line 60 of
main.py filters the list already rebuilt on line 59 — whose members all
come from `field_order` — so the append contributes nothing: the loader
equals deduplication of `field_order` restricted to the registry, and on
the failing input `registry = [title, author]`, `field_order = [title]`
the field `author` disappears. -/
theorem load_bibtex_fields_drops_unlisted :
    (∀ registry field_order : List Str, field_order ≠ [] →
        load_bibtex_fields registry field_order =
          dedupFirst (field_order.filter (fun f => decide (f ∈ registry))))
    ∧ load_bibtex_fields ["title".data, "author".data] ["title".data] = ["title".data]
    ∧ "author".data ∉ load_bibtex_fields ["title".data, "author".data] ["title".data] := by
  refine ⟨?_, by decide, by decide⟩
  intro registry field_order hne
  have hdead : (field_order.filter (fun f => decide (f ∈ registry))).filter
      (fun f => decide (f ∉ field_order)) = [] := by
    rw [List.filter_eq_nil_iff]
    intro a ha
    have : a ∈ field_order := (List.mem_filter.mp ha).1
    simp [this]
  simp only [load_bibtex_fields, if_neg hne, hdead, List.append_nil]

/-!
### Claim C10
-/

/-- C10 counterexample: with the key `k,` and no serialized fields, the
final `rstrip(',')` also eats the comma belonging to the key, producing
the header `@article{k` rather than the claimed `@article{k,` (the
literal `@<entryType>{<key>`). -/
theorem serialize_no_fields_comma_key :
    serializeLines "article".data ['k', ','] [] ["title".data] =
      [('@' :: "article".data) ++ '{' :: ['k'], ['}']] ∧
      ('@' :: "article".data) ++ '{' :: ['k'] ≠
        ('@' :: "article".data) ++ '{' :: ['k', ','] := by decide

/-- C10 (amended): for every key not ending in a comma and every entry
type, when the record has no field present in `fieldOrder` the serializer
emits exactly the two lines `@<entryType>{<key>` (the header with its
trailing comma stripped) and `}` — the final comma stripping applies to
the last emitted line, here the header itself. -/
theorem serialize_no_fields (et k : Str) (entry : Rcd) (fo : List Str)
    (hnone : ∀ f ∈ fo, lookupR entry f = none)
    (hk : k.getLast? ≠ some ',') :
    serializeLines et k entry fo = [('@' :: et) ++ '{' :: k, ['}']] := by
  unfold serializeLines
  have hfm : fo.filterMap (fun f => (lookupR entry f).map (fun v => mkFieldLine f v true)) = [] := by
    rw [List.filterMap_eq_nil_iff]
    intro f hf
    rw [hnone f hf]
    rfl
  rw [hfm, stripLastComma]
  unfold headerLine
  rw [pyRstrip_concat_mem (by decide)]
  have hid : pyRstrip (('@' :: et) ++ ('{' :: k)) [','] = ('@' :: et) ++ ('{' :: k) := by
    apply pyRstrip_eq_self
    intro c hc hmem
    rw [getLast?_append_or] at hc
    rcases hk' : k.getLast? with _ | d
    · have hknil : k = [] := by
        rw [← List.head?_reverse] at hk'
        rcases hrev : k.reverse with _ | ⟨a, t⟩
        · simpa using congrArg List.reverse hrev
        · rw [hrev] at hk'; cases hk'
      subst hknil
      simp at hc
      subst hc
      simp at hmem
    · have hlk : ('{' :: k).getLast? = some d := by
        rw [show ('{' :: k) = ['{'] ++ k by rfl, getLast?_append_or, hk']
        rfl
      rw [hlk] at hc
      simp at hc
      subst hc
      simp at hmem
      exact hk (by rw [hk', hmem])
  rw [hid]
  rfl

/-- C10 witness: a concrete record with no field in the order. -/
theorem serialize_no_fields_witness :
    serializeLines "article".data "k1".data [] ["title".data] =
      [('@' :: "article".data) ++ '{' :: "k1".data, ['}']] :=
  serialize_no_fields "article".data "k1".data [] ["title".data] (by decide) (by decide)

/-!
### Claims C4, C5, C7
-/

/-- C5: edge cases of the match engine — an empty query with `contains`
matches every value; an empty query with `exact` matches exactly the empty
value; with no modes enabled nothing matches (and no preview is set). -/
theorem match_edge_cases :
    (∀ (eng : Str → Str → Except Unit Bool) (t : ℚ) (v : Str),
        (searchMatch eng ["contains"] t v []).1 = true)
    ∧ (∀ (eng : Str → Str → Except Unit Bool) (t : ℚ) (v : Str),
        ((searchMatch eng ["exact"] t v []).1 = true ↔ v = []))
    ∧ (∀ (eng : Str → Str → Except Unit Bool) (t : ℚ) (v q : Str),
        searchMatch eng [] t v q = (false, false)) := by
  refine ⟨?_, ?_, ?_⟩
  · intro eng t v
    simp [searchMatch, pyIn_nil_left, pyLower]
  · intro eng t v
    simp [searchMatch, pyLower_eq_nil_iff, pyLower]
  · intro eng t v q
    simp [searchMatch]

/-- C4: with only `fuzzy` enabled, a value matches exactly when the
similarity ratio of the lowercased value and query reaches the threshold
(inclusively, `>=` in the source); whenever the fuzzy condition holds —
under any enabled mode set — the preview text is the value itself, and
when fuzzy did not contribute the preview is empty. -/
theorem fuzzy_threshold_inclusive_and_preview (eng : Str → Str → Except Unit Bool)
    (v q : Str) (t : ℚ) (_ht : 0 ≤ t ∧ t ≤ 1) :
    ((searchMatch eng ["fuzzy"] t v q).1 = true ↔ t ≤ simScore (pyLower v) (pyLower q))
    ∧ (∀ sel : List String, "fuzzy" ∈ sel → t ≤ simScore (pyLower v) (pyLower q) →
        previewOf eng sel t v q = v)
    ∧ (∀ sel : List String, ¬("fuzzy" ∈ sel ∧ t ≤ simScore (pyLower v) (pyLower q)) →
        previewOf eng sel t v q = []) := by
  refine ⟨?_, ?_, ?_⟩
  · by_cases h : t ≤ simScore (pyLower v) (pyLower q) <;> simp [searchMatch, h]
  · intro sel hmem hle
    simp [previewOf, searchMatch, hmem, hle]
  · intro sel hn
    by_cases hmem : "fuzzy" ∈ sel
    · have hle : ¬ t ≤ simScore (pyLower v) (pyLower q) := fun h => hn ⟨hmem, h⟩
      simp [previewOf, searchMatch, hmem, hle]
    · simp [previewOf, searchMatch, hmem]

/-- C4 witness: the fuzzy boundary at a concrete input — identical
one-character strings at threshold one. -/
theorem fuzzy_threshold_witness :
    ((searchMatch (fun _ _ => Except.ok false) ["fuzzy"] 1 ['a'] ['a']).1 = true ↔
        (1 : ℚ) ≤ simScore (pyLower ['a']) (pyLower ['a']))
    ∧ (∀ sel : List String, "fuzzy" ∈ sel →
        (1 : ℚ) ≤ simScore (pyLower ['a']) (pyLower ['a']) →
        previewOf (fun _ _ => Except.ok false) sel 1 ['a'] ['a'] = ['a'])
    ∧ (∀ sel : List String, ¬("fuzzy" ∈ sel ∧
          (1 : ℚ) ≤ simScore (pyLower ['a']) (pyLower ['a'])) →
        previewOf (fun _ _ => Except.ok false) sel 1 ['a'] ['a'] = []) :=
  fuzzy_threshold_inclusive_and_preview (fun _ _ => Except.ok false) ['a'] ['a'] 1
    (by norm_num)

/-- C7: a regex pattern that fails to compile is swallowed by the
`except re.error: pass` — for every search it behaves exactly like a
pattern that never matches: the per-field verdicts agree, and the result
list over any store is the same, so the search continues over all
records. -/
theorem regex_error_never_matches (eng : Str → Str → Except Unit Bool) (q : Str)
    (herr : ∀ v, eng q v = Except.error ()) :
    (∀ (sel : List String) (t : ℚ) (v : Str),
        searchMatch eng sel t v q = searchMatch (fun _ _ => Except.ok false) sel t v q)
    ∧ (∀ (db : List (Str × Rcd)) (field : Str) (sel : List String) (t : ℚ),
        searchResults eng db field q sel t =
          searchResults (fun _ _ => Except.ok false) db field q sel t) := by
  have hsm : ∀ sel t v, searchMatch eng sel t v q =
      searchMatch (fun _ _ => Except.ok false) sel t v q := by
    intro sel t v
    unfold searchMatch
    rw [herr v]
    simp
  refine ⟨hsm, ?_⟩
  intro db field sel t
  unfold searchResults
  have hfn : (fun (results : List (Str × Rcd × Str)) (kv : Str × Rcd) =>
      let value := lookupGetD kv.2 field []
      let r := searchMatch eng sel t value q
      if r.1 then results ++ [(kv.1, kv.2, if r.2 then value else [])] else results)
    = (fun (results : List (Str × Rcd × Str)) (kv : Str × Rcd) =>
      let value := lookupGetD kv.2 field []
      let r := searchMatch (fun _ _ => Except.ok false) sel t value q
      if r.1 then results ++ [(kv.1, kv.2, if r.2 then value else [])] else results) := by
    funext results kv
    simp only [hsm]
  rw [hfn]

/-- C7 witness: an always-erroring engine (an uncompilable pattern such as
a lone `(`) evaluated at a concrete query and value. -/
theorem regex_error_witness :
    searchMatch (fun _ _ => Except.error ()) ["regex"] 1 ['a'] ['('] =
      searchMatch (fun _ _ => Except.ok false) ["regex"] 1 ['a'] ['('] :=
  (regex_error_never_matches (fun _ _ => Except.error ()) ['('] (fun _ => rfl)).1
    ["regex"] 1 ['a']

/-!
### Claims C8, C6, C9
-/

/-- C8: the missing-field computation returns exactly the stripped first
alternatives of the entry type's requirements that are not the key field
and whose value is absent or blank in the record; in particular with
article requiring title, journal and year, a record holding only a title
is missing journal and year. -/
theorem validate_missing_spec :
    (∀ (record : Rcd) (required : List Str) (rf : Str),
        rf ∈ validate record required ↔
          ((∃ r0 ∈ required, pyStrip (firstAltSave r0) = rf) ∧ rf ≠ "key".data ∧
            pyStrip (lookupGetD record rf []) = []))
    ∧ validate [("title".data, "X".data)] ["title".data, "journal".data, "year".data] =
        ["journal".data, "year".data] := by
  refine ⟨?_, by decide⟩
  intro record required rf
  constructor
  · intro h
    rcases List.mem_filterMap.mp h with ⟨rf0, hrf0, heq⟩
    rcases List.mem_map.mp hrf0 with ⟨r0, hr0, hfa⟩
    split_ifs at heq with h1 h2
    injection heq with heq'
    subst heq'
    exact ⟨⟨r0, hr0, by rw [hfa]⟩, h1, h2⟩
  · rintro ⟨⟨r0, hr0, hstrip⟩, hkey, hempty⟩
    apply List.mem_filterMap.mpr
    refine ⟨firstAltSave r0, List.mem_map_of_mem _ hr0, ?_⟩
    rw [hstrip, if_neg hkey, if_pos hempty]

/-- C6: an add-mode save (with the key field shown, a non-blank key and a
selected entry type) whose key is already bound in the store is rejected
with the duplicate-key error before any mutation: the returned store is
the input store. -/
theorem save_duplicate_key_rejected (db : List (Str × Rcd)) (fs : FormState)
    (hmode : fs.modeAdd = true) (hshow : fs.showKey = true)
    (hkey : newKeyOf fs ≠ []) (het : pyStrip fs.etInput ≠ [])
    (hdup : (lookupR db (newKeyOf fs)).isSome = true) :
    saveFlow db fs = (SaveOutcome.errDuplicateKey, db) := by
  simp only [saveFlow]
  rw [if_neg (fun h => hkey h.2), if_neg het, if_pos ⟨hmode, hshow, hdup⟩]

/-- C6 witness: saving key `k1` into a store already holding `k1`. -/
theorem save_duplicate_key_witness :
    saveFlow [("k1".data, [(etKey, "article".data)])]
        ⟨"k1".data, none, true, true, "article".data, [], [], [], false⟩ =
      (SaveOutcome.errDuplicateKey, [("k1".data, [(etKey, "article".data)])]) :=
  save_duplicate_key_rejected [("k1".data, [(etKey, "article".data)])]
    ⟨"k1".data, none, true, true, "article".data, [], [], [], false⟩
    rfl rfl (by decide) (by decide) (by decide)

/-- C9: when the form widgets' states are as `update_fields` leaves them
(normal exactly for the fields applicable to the entry type), every field
of a record a save produces has a non-empty value, and every field other
than `entry_type` is applicable (required or optional) for the record's
entry type. -/
theorem saved_entry_invariant (db : List (Str × Rcd)) (fs : FormState)
    (k : Str) (e : Rcd)
    (hstates : ∀ x ∈ fs.fieldsF, x.2.2 = applicableGUI fs.required fs.optionalReq x.1)
    (hsave : (saveFlow db fs).1 = SaveOutcome.saved k e) :
    ∀ p ∈ e, p.2 ≠ [] ∧ (p.1 = etKey ∨ applicableGUI fs.required fs.optionalReq p.1 = true) := by
  simp only [saveFlow] at hsave
  split_ifs at hsave with h1 h2 h3 h4
  simp only [Prod.fst] at hsave
  cases hsave
  intro p hp
  rcases mem_insertR hp with hpe | hpm
  · subst hpe
    exact ⟨h2, Or.inl rfl⟩
  · rcases List.mem_filterMap.mp hpm with ⟨x, hx, hxeq⟩
    split_ifs at hxeq with hc
    cases hxeq
    exact ⟨hc.1, Or.inr ((hstates x hx).symm.trans hc.2)⟩

/-- C9 witness: a successful save of a one-field record, checked at its
title binding. -/
theorem saved_entry_invariant_witness :
    ("title".data, "T".data).2 ≠ [] ∧
      (("title".data, "T".data).1 = etKey ∨
        applicableGUI ["title".data] [] ("title".data, "T".data).1 = true) :=
  saved_entry_invariant []
    ⟨"k2".data, none, true, true, "article".data, ["title".data], [],
      [("title".data, "T".data, true)], true⟩
    "k2".data [("title".data, "T".data), (etKey, "article".data)]
    (by decide) (by decide) ("title".data, "T".data) (by decide)

/-- An edge character that is not whitespace. -/
def edgeNotWS : Option Char → Bool
  | none => true
  | some c => decide (c ∉ wsChars)

/-- An edge character that is neither whitespace nor a brace. -/
def braceWsEdge : Option Char → Bool
  | none => true
  | some c => decide (c ∉ wsChars) && decide (c ≠ '{') && decide (c ≠ '}')

/-- A key the header line represents faithfully: non-empty, no surrounding
whitespace, no comma (the key/field separator), no newline. -/
def goodKey (k : Str) : Bool :=
  decide (k ≠ []) && edgeNotWS k.head? && edgeNotWS k.getLast? &&
    decide (',' ∉ k) && decide ('\n' ∉ k)

/-- An entry type the header line represents faithfully: no `{` (the
header split point) and no newline. -/
def goodET (et : Str) : Bool := decide ('{' ∉ et) && decide ('\n' ∉ et)

/-- A field name a field line represents faithfully: non-empty, already
lowercase, no surrounding whitespace, no `=`, no newline, and not starting
with `@` (which would be taken for a header). -/
def goodField (f : Str) : Bool :=
  decide (f ≠ []) && edgeNotWS f.head? && edgeNotWS f.getLast? &&
    decide (pyLower f = f) && decide ('=' ∉ f) && decide ('\n' ∉ f) &&
    decide (f.head? ≠ some '@')

/-- A value a field line represents faithfully: no newline, and neither
whitespace nor brace characters at its two ends (interior braces, commas
and spaces survive the round trip). -/
def goodValue (v : Str) : Bool :=
  braceWsEdge v.head? && braceWsEdge v.getLast? && decide ('\n' ∉ v)

/-- A well-formed binding of a record relative to a field order. -/
def goodBinding (entry : Rcd) (f : Str) : Bool :=
  match lookupR entry f with
  | some v => goodField f && goodValue v
  | none => true

theorem edgeNotWS_spec {o : Option Char} (h : edgeNotWS o = true) :
    ∀ c, o = some c → c ∉ wsChars := by
  intro c hc
  subst hc
  simpa [edgeNotWS] using h

theorem braceWsEdge_spec {o : Option Char} (h : braceWsEdge o = true) :
    ∀ c, o = some c → c ∉ wsChars ∧ c ≠ '{' ∧ c ≠ '}' := by
  intro c hc
  subst hc
  simpa [braceWsEdge, and_assoc] using h

theorem pyRstrip_mkFieldLine (f v : Str) :
    pyRstrip (mkFieldLine f v true) [','] = mkFieldLine f v false := by
  show pyRstrip ((('\t' :: f) ++ (['\t', '\t', ' ', '=', ' ', '{'] ++ v ++ ['}'])) ++ [',']) [','] =
      (('\t' :: f) ++ (['\t', '\t', ' ', '=', ' ', '{'] ++ v ++ ['}'])) ++ []
  rw [pyRstrip_concat_mem (by decide), List.append_nil]
  apply pyRstrip_eq_self
  intro c hc hmem
  rw [show ('\t' :: f) ++ (['\t', '\t', ' ', '=', ' ', '{'] ++ v ++ ['}']) =
      (('\t' :: f) ++ (['\t', '\t', ' ', '=', ' ', '{'] ++ v)) ++ ['}'] by simp,
    List.getLast?_concat] at hc
  cases hc
  simp at hmem

theorem stripLastComma_append_last (xs : List Str) (x : Str) :
    stripLastComma (xs ++ [x]) = xs ++ [pyRstrip x [',']] := by
  induction xs with
  | nil => rfl
  | cons a xs ih =>
      cases hxx : xs ++ [x] with
      | nil => exact absurd hxx (by simp)
      | cons b t =>
          calc stripLastComma ((a :: xs) ++ [x]) = stripLastComma (a :: (b :: t)) := by
                rw [List.cons_append, hxx]
            _ = a :: stripLastComma (b :: t) := rfl
            _ = a :: stripLastComma (xs ++ [x]) := by rw [hxx]
            _ = (a :: xs) ++ [pyRstrip x [',']] := by rw [ih]; rfl

theorem pstep_close {st : PState} (hin : st.inside = true) :
    pstep st ['}'] = ⟨flushPending st, [], none, none, false⟩ := by
  have h1 : pyStrip ['}'] = ['}'] := by decide
  simp only [pstep, h1]
  rw [if_neg (by decide : ¬(['}'] : Str) = []), if_neg (by decide : ¬(['}'] : Str).head? = some '@'),
    if_neg (by simp : ¬(st.inside ∧ '=' ∈ (['}'] : Str))),
    if_pos ⟨hin, by decide⟩]

theorem pstep_header {st : PState} {et k : Str}
    (het : goodET et = true) (hk : goodKey k = true) :
    pstep st (headerLine et k) = ⟨flushPending st, [], some k, some et, true⟩ := by
  have hket := hk
  simp only [goodKey, Bool.and_eq_true, decide_eq_true_eq] at hket
  obtain ⟨⟨⟨⟨hkne, hkh⟩, hkl⟩, hkc⟩, hknl⟩ := hket
  have het' := het
  simp only [goodET, Bool.and_eq_true, decide_eq_true_eq] at het'
  obtain ⟨hetb, hetnl⟩ := het'
  have hstrip : pyStrip (headerLine et k) = headerLine et k := by
    apply pyStrip_eq_self
    · intro c hc
      simp only [headerLine, List.cons_append, List.append_assoc, List.head?_cons,
        Option.some.injEq] at hc
      subst hc; decide
    · intro c hc
      rw [headerLine, List.getLast?_concat] at hc
      cases hc; decide
  simp only [pstep, hstrip]
  have hne : headerLine et k ≠ [] := by simp [headerLine]
  have hhead : (headerLine et k).head? = some '@' := by
    simp [headerLine, List.cons_append]
  rw [if_neg hne, if_pos hhead]
  have hdrop : (headerLine et k).drop 1 = et ++ '{' :: (k ++ [',']) := by
    simp [headerLine, List.cons_append, List.append_assoc]
  rw [hdrop, splitOnce_append hetb]
  have hksplit : splitOnce (k ++ [',']) ',' = some (k, []) := by
    simpa using splitOnce_append hkc ([] : Str)
  simp only [hksplit]
  have hkstrip : pyStrip k = k :=
    pyStrip_eq_self (edgeNotWS_spec hkh) (edgeNotWS_spec hkl)
  rw [hkstrip]

theorem pyLstrip_cons_of_mem {c : Char} {S : List Char} (h : c ∈ S) (l : Str) :
    pyLstrip (c :: l) S = pyLstrip l S := by
  simp [pyLstrip, List.dropWhile_cons, h]

theorem pstep_field {st : PState} {f v : Str} (comma : Bool)
    (hf : goodField f = true) (hv : goodValue v = true) (hin : st.inside = true) :
    pstep st (mkFieldLine f v comma) = { st with entry := insertR st.entry f v } := by
  have hf' := hf
  simp only [goodField, Bool.and_eq_true, decide_eq_true_eq] at hf'
  obtain ⟨⟨⟨⟨⟨⟨hfne, hfh⟩, hfl⟩, hflow⟩, hfeq⟩, hfnl⟩, hfat⟩ := hf'
  have hv' := hv
  simp only [goodValue, Bool.and_eq_true, decide_eq_true_eq] at hv'
  obtain ⟨⟨hvh, hvl⟩, hvnl⟩ := hv'
  obtain ⟨d, f', rfl⟩ : ∃ d f', f = d :: f' := by
    cases f with
    | nil => exact absurd rfl hfne
    | cons d f' => exact ⟨d, f', rfl⟩
  set f := d :: f' with hfdef
  have hdws : d ∉ wsChars := edgeNotWS_spec hfh d rfl
  -- the last character of any tail suffix
  have hCends : ∀ X : Str, (if comma then [','] else []) = X → True := fun _ _ => trivial
  -- the stripped line
  set B : Str := ['\t', '\t', ' ', '=', ' ', '{'] ++ v ++ ['}'] with hBdef
  have hstrip : pyStrip (mkFieldLine f v comma) = (f ++ B) ++ (if comma then [','] else []) := by
    unfold pyStrip stripCh
    have h1 : pyLstrip (mkFieldLine f v comma) wsChars =
        (f ++ B) ++ (if comma then [','] else []) := by
      have : mkFieldLine f v comma = '\t' :: ((f ++ B) ++ (if comma then [','] else [])) := by
        simp [mkFieldLine, hBdef, List.cons_append, List.append_assoc]
      rw [this, pyLstrip_cons_of_mem (by decide),
        show (f ++ B) ++ (if comma then [','] else []) =
          d :: ((f' ++ B) ++ (if comma then [','] else [])) by simp [hfdef],
        pyLstrip_cons_of_not_mem hdws]
    rw [h1]
    cases comma with
    | true =>
        rw [if_pos rfl, show ((f ++ B) : Str) ++ [','] = (f ++ B) ++ [','] from rfl]
        apply pyRstrip_eq_self
        intro c hc hmem
        rw [List.getLast?_concat] at hc
        cases hc; exact absurd hmem (by decide)
    | false =>
        rw [if_neg (show ¬(false = true) by simp), List.append_nil]
        apply pyRstrip_eq_self
        intro c hc hmem
        rw [show ((f ++ B) : Str) = (f ++ (['\t', '\t', ' ', '=', ' ', '{'] ++ v)) ++ ['}']
            by simp [hBdef], List.getLast?_concat] at hc
        cases hc; exact absurd hmem (by decide)
  simp only [pstep, hstrip]
  have hLne : (f ++ B) ++ (if comma then [','] else []) ≠ [] := by simp [hfdef]
  have hLhead : ((f ++ B) ++ (if comma then [','] else [])).head? = some d := by
    simp [hfdef]
  have hnotat : ¬ ((f ++ B ++ if comma = true then [','] else []).head? = some '@') := by
    rw [hLhead]
    intro hx
    injection hx with hx
    exact hfat (by rw [show f.head? = some d from rfl, hx])
  rw [if_neg hLne, if_neg hnotat]
  rw [if_pos ⟨hin, by simp [hBdef]⟩]
  -- the field-line split
  have hL : ((f ++ B) ++ (if comma then [','] else [])) =
      (f ++ ['\t', '\t', ' ']) ++ '=' :: ((' ' :: '{' :: (v ++ ['}'])) ++ (if comma then [','] else [])) := by
    simp [hBdef, List.append_assoc, List.cons_append]
  have hnosep : '=' ∉ f ++ ['\t', '\t', ' '] := by
    intro hmem
    rcases List.mem_append.mp hmem with h | h
    · exact hfeq h
    · simp at h
  have hsplit := splitOnce_append hnosep ((' ' :: '{' :: (v ++ ['}'])) ++ (if comma then [','] else []))
  have hname : pyLower (pyStrip (f ++ ['\t', '\t', ' '])) = f := by
    have h1 : pyLstrip (f ++ ['\t', '\t', ' ']) wsChars = f ++ ['\t', '\t', ' '] := by
      rw [show (f ++ ['\t', '\t', ' '] : Str) = d :: (f' ++ ['\t', '\t', ' ']) by simp [hfdef]]
      exact pyLstrip_cons_of_not_mem hdws _
    have h2 : pyRstrip (f ++ ['\t', '\t', ' ']) wsChars = f := by
      rw [show (f ++ ['\t', '\t', ' '] : Str) = ((f ++ ['\t']) ++ ['\t']) ++ [' '] by simp,
        pyRstrip_concat_mem (by decide), pyRstrip_concat_mem (by decide),
        pyRstrip_concat_mem (by decide)]
      exact pyRstrip_eq_self (edgeNotWS_spec hfl)
    unfold pyStrip stripCh
    rw [h1, h2, hflow]
  have hvalue : parseFieldValue ((' ' :: '{' :: (v ++ ['}'])) ++ (if comma then [','] else [])) = v := by
    have hS1 : pyStrip ((' ' :: '{' :: (v ++ ['}'])) ++ (if comma then [','] else [])) =
        ('{' :: (v ++ ['}'])) ++ (if comma then [','] else []) := by
      unfold pyStrip stripCh
      have h1 : pyLstrip ((' ' :: '{' :: (v ++ ['}'])) ++ (if comma then [','] else [])) wsChars =
          ('{' :: (v ++ ['}'])) ++ (if comma then [','] else []) := by
        rw [show ((' ' :: '{' :: (v ++ ['}'])) ++ (if comma then [','] else []) : Str) =
            ' ' :: ('{' :: ((v ++ ['}']) ++ (if comma then [','] else []))) by simp,
          pyLstrip_cons_of_mem (by decide : (' ' : Char) ∈ wsChars),
          pyLstrip_cons_of_not_mem (by decide : ('{' : Char) ∉ wsChars)]
        simp
      rw [h1]
      cases comma with
      | true =>
          rw [if_pos rfl, pyRstrip_eq_self]
          intro c hc hmem
          rw [List.getLast?_concat] at hc
          cases hc; exact absurd hmem (by decide)
      | false =>
          rw [if_neg (show ¬(false = true) by simp), List.append_nil, pyRstrip_eq_self]
          intro c hc hmem
          rw [show ('{' :: (v ++ ['}']) : Str) = ('{' :: v) ++ ['}'] by simp,
            List.getLast?_concat] at hc
          cases hc; exact absurd hmem (by decide)
    have hS2 : stripCh (('{' :: (v ++ ['}'])) ++ (if comma then [','] else [])) [','] =
        '{' :: (v ++ ['}']) := by
      unfold stripCh
      have h1 : pyLstrip (('{' :: (v ++ ['}'])) ++ (if comma then [','] else [])) [','] =
          ('{' :: (v ++ ['}'])) ++ (if comma then [','] else []) := by
        rw [show (('{' :: (v ++ ['}'])) ++ (if comma then [','] else []) : Str) =
            '{' :: ((v ++ ['}']) ++ (if comma then [','] else [])) by simp,
          pyLstrip_cons_of_not_mem (by decide)]
      rw [h1]
      have hlast : pyRstrip ('{' :: (v ++ ['}'])) [','] = '{' :: (v ++ ['}']) := by
        apply pyRstrip_eq_self
        intro c hc hmem
        rw [show ('{' :: (v ++ ['}']) : Str) = ('{' :: v) ++ ['}'] by simp,
          List.getLast?_concat] at hc
        cases hc; exact absurd hmem (by decide)
      cases comma with
      | true => rw [if_pos rfl, pyRstrip_concat_mem (by decide), hlast]
      | false => rw [if_neg (show ¬(false = true) by simp), List.append_nil, hlast]
    have hS3 : stripCh ('{' :: (v ++ ['}'])) ['{', '}'] = v := by
      unfold stripCh
      rw [pyLstrip_cons_of_mem (by decide)]
      cases v with
      | nil =>
          rw [List.nil_append, pyLstrip_cons_of_mem (by decide), pyLstrip_nil, pyRstrip_nil]
      | cons e v'' =>
          have hew : e ∉ (['{', '}'] : List Char) := by
            rcases braceWsEdge_spec hvh e rfl with ⟨_, h2, h3⟩
            intro hmem
            simp only [List.mem_cons, List.mem_singleton, List.not_mem_nil, or_false] at hmem
            rcases hmem with h | h
            · exact h2 h
            · exact h3 h
          rw [show ((e :: v'') ++ ['}'] : Str) = e :: (v'' ++ ['}']) by simp,
            pyLstrip_cons_of_not_mem hew, ← List.cons_append,
            pyRstrip_concat_mem (by decide)]
          apply pyRstrip_eq_self
          intro c hc hmem
          rcases braceWsEdge_spec hvl c hc with ⟨_, h2, h3⟩
          simp only [List.mem_cons, List.mem_singleton, List.not_mem_nil, or_false] at hmem
          rcases hmem with h | h
          · exact h2 h
          · exact h3 h
    have hS4 : pyStrip v = v :=
      pyStrip_eq_self (fun c hc => (braceWsEdge_spec hvh c hc).1)
        (fun c hc => (braceWsEdge_spec hvl c hc).1)
    unfold parseFieldValue
    rw [hS1, hS2, hS3, hS4]
  rw [hL]
  unfold parseFieldLine
  rw [hsplit]
  simp only [Option.map_some']
  rw [hname, hvalue]

theorem foldl_pstep_fieldLines (ps : List ((Str × Str) × Bool)) :
    ∀ st : PState, st.inside = true →
    (∀ x ∈ ps, goodField x.1.1 = true ∧ goodValue x.1.2 = true) →
    (ps.map (fun x => mkFieldLine x.1.1 x.1.2 x.2)).foldl pstep st =
      { st with entry := insertAll st.entry (ps.map (fun x => x.1)) } := by
  induction ps with
  | nil => intro st _ _; simp [insertAll]
  | cons x ps ih =>
      intro st hin hgood
      simp only [List.map_cons, List.foldl_cons]
      rw [pstep_field x.2 (hgood x (List.mem_cons_self x ps)).1
        (hgood x (List.mem_cons_self x ps)).2 hin]
      rw [ih { st with entry := insertR st.entry x.1.1 x.1.2 } hin
        (fun y hy => hgood y (List.mem_cons_of_mem x hy))]
      rfl

theorem newline_not_mem_headerLine {et k : Str} (h1 : '\n' ∉ et) (h2 : '\n' ∉ k) :
    '\n' ∉ headerLine et k := by
  intro hmem
  simp [headerLine] at hmem
  rcases hmem with h | h
  · exact h1 h
  · exact h2 h

theorem newline_not_mem_mkFieldLine {f v : Str} (comma : Bool)
    (h1 : '\n' ∉ f) (h2 : '\n' ∉ v) : '\n' ∉ mkFieldLine f v comma := by
  intro hmem
  cases comma <;> simp [mkFieldLine] at hmem <;> rcases hmem with h | h
  · exact h1 h
  · exact h2 h
  · exact h1 h
  · exact h2 h

theorem pyRstrip_ws_headerLine (et k : Str) :
    pyRstrip (headerLine et k) wsChars = headerLine et k := by
  apply pyRstrip_eq_self
  intro c hc hmem
  rw [headerLine, List.getLast?_concat] at hc
  cases hc
  exact absurd hmem (by decide)

theorem pyRstrip_ws_mkFieldLine (f v : Str) (comma : Bool) :
    pyRstrip (mkFieldLine f v comma) wsChars = mkFieldLine f v comma := by
  apply pyRstrip_eq_self
  intro c hc hmem
  cases comma with
  | true =>
      rw [show mkFieldLine f v true =
          (('\t' :: f) ++ (['\t', '\t', ' ', '=', ' ', '{'] ++ v ++ ['}'])) ++ [','] from rfl,
        List.getLast?_concat] at hc
      cases hc
      exact absurd hmem (by decide)
  | false =>
      rw [show mkFieldLine f v false =
          (('\t' :: f) ++ (['\t', '\t', ' ', '=', ' ', '{'] ++ v)) ++ ['}'] by
            simp [mkFieldLine], List.getLast?_concat] at hc
      cases hc
      exact absurd hmem (by decide)

/-- C1 (amended): serializing `(key, record, entryType, fieldOrder)` and
parsing the text back yields exactly one `(key, record')`, with `record'`
field-for-field equal to the restriction of the record to the fields of
`fieldOrder` and `entry_type` recovered from the header — provided the
record has at least one field in `fieldOrder` (otherwise nothing is
emitted), the key is non-empty, trimmed and free of commas and newlines,
the entry type contains no `{` or newline, and each serialized field
name/value survives the parser's trimming (names lowercase and trimmed
with no `=`, values with no newline and no whitespace or brace at either
end). -/
theorem serialize_parse_round_trip (et k : Str) (entry : Rcd) (fo : List Str)
    (hk : goodKey k = true) (het : goodET et = true)
    (hf : ∀ f ∈ fo, goodBinding entry f = true)
    (hne : ∃ f ∈ fo, (lookupR entry f).isSome = true) :
    ∃ r : Rcd, importParse (serializeText et k entry fo) = [(k, r)] ∧
      ∀ g : Str, lookupR r g =
        (if g = etKey then some et
         else if g ∈ fo then lookupR entry g else none) := by
  classical
  have hk' := hk
  simp only [goodKey, Bool.and_eq_true, decide_eq_true_eq] at hk'
  obtain ⟨⟨⟨⟨hkne, _⟩, _⟩, _⟩, hknl⟩ := hk'
  have het' := het
  simp only [goodET, Bool.and_eq_true, decide_eq_true_eq] at het'
  obtain ⟨_, hetnl⟩ := het'
  set pairs : List (Str × Str) :=
    fo.filterMap (fun f => (lookupR entry f).map (fun v => (f, v))) with hpairsdef
  have hpairs_mem : ∀ p ∈ pairs, p.1 ∈ fo ∧ lookupR entry p.1 = some p.2 := by
    intro p hp
    rcases List.mem_filterMap.mp hp with ⟨f, hfo, heq⟩
    rcases hlk : lookupR entry f with _ | v
    · rw [hlk] at heq; cases heq
    · rw [hlk] at heq
      injection heq with heq
      cases heq
      exact ⟨hfo, hlk⟩
  have hmem_pairs : ∀ f v, f ∈ fo → lookupR entry f = some v → (f, v) ∈ pairs := by
    intro f v hfo hlk
    exact List.mem_filterMap.mpr ⟨f, hfo, by rw [hlk]; rfl⟩
  have hpgood : ∀ p ∈ pairs, goodField p.1 = true ∧ goodValue p.2 = true := by
    intro p hp
    obtain ⟨hfo, hlk⟩ := hpairs_mem p hp
    have := hf p.1 hfo
    rw [goodBinding, hlk, Bool.and_eq_true] at this
    exact this
  have hpne : pairs ≠ [] := by
    rcases hne with ⟨f, hfo, hs⟩
    rcases Option.isSome_iff_exists.mp hs with ⟨v, hv⟩
    intro h0
    have := hmem_pairs f v hfo hv
    rw [h0] at this
    cases this
  rcases List.eq_nil_or_concat pairs with h0 | ⟨ps', pl, hdec0⟩
  · exact absurd h0 hpne
  have hdec : pairs = ps' ++ [pl] := by rw [hdec0, List.concat_eq_append]
  have hFL : fo.filterMap (fun f => (lookupR entry f).map (fun v => mkFieldLine f v true)) =
      pairs.map (fun p => mkFieldLine p.1 p.2 true) := by
    rw [hpairsdef, List.map_filterMap]
    congr 1
    funext f
    cases lookupR entry f <;> rfl
  have hserLines : serializeLines et k entry fo =
      headerLine et k :: ((ps'.map (fun p => mkFieldLine p.1 p.2 true) ++
        [mkFieldLine pl.1 pl.2 false]) ++ [['}']]) := by
    unfold serializeLines
    rw [hFL, hdec, List.map_append]
    rw [show headerLine et k :: (ps'.map (fun p => mkFieldLine p.1 p.2 true) ++
          (([pl] : List (Str × Str)).map (fun p => mkFieldLine p.1 p.2 true))) =
        (headerLine et k :: ps'.map (fun p => mkFieldLine p.1 p.2 true)) ++
          [mkFieldLine pl.1 pl.2 true] by simp]
    rw [stripLastComma_append_last, pyRstrip_mkFieldLine]
    simp
  -- every line of the serialization is newline-free
  have hps'good : ∀ p ∈ ps', goodField p.1 = true ∧ goodValue p.2 = true := by
    intro p hp
    exact hpgood p (by rw [hdec]; exact List.mem_append_left _ hp)
  have hplgood : goodField pl.1 = true ∧ goodValue pl.2 = true := by
    apply hpgood
    rw [hdec]
    exact List.mem_append_right _ (List.mem_singleton.mpr rfl)
  have hnlf : ∀ p : Str × Str, goodField p.1 = true ∧ goodValue p.2 = true →
      '\n' ∉ p.1 ∧ '\n' ∉ p.2 := by
    intro p ⟨h1, h2⟩
    simp only [goodField, goodValue, Bool.and_eq_true, decide_eq_true_eq] at h1 h2
    exact ⟨h1.1.2, h2.2⟩
  have hlinesnl : ∀ l ∈ headerLine et k :: ((ps'.map (fun p => mkFieldLine p.1 p.2 true) ++
      [mkFieldLine pl.1 pl.2 false]) ++ [['}']]), '\n' ∉ l := by
    intro l hl
    rcases List.mem_cons.mp hl with hl | hl
    · subst hl
      exact newline_not_mem_headerLine hetnl hknl
    rcases List.mem_append.mp hl with hl | hl
    · rcases List.mem_append.mp hl with hl | hl
      · rcases List.mem_map.mp hl with ⟨p, hp, hpe⟩
        subst hpe
        obtain ⟨h1, h2⟩ := hnlf p (hps'good p hp)
        exact newline_not_mem_mkFieldLine true h1 h2
      · rw [List.mem_singleton.mp hl]
        obtain ⟨h1, h2⟩ := hnlf pl hplgood
        exact newline_not_mem_mkFieldLine false h1 h2
    · rw [List.mem_singleton.mp hl]
      decide
  -- the parse splits the text back into the serialized lines
  have hsplit : (splitOnChar '\n' (serializeText et k entry fo)).map
      (fun l => pyRstrip l wsChars) =
      headerLine et k :: ((ps'.map (fun p => mkFieldLine p.1 p.2 true) ++
        [mkFieldLine pl.1 pl.2 false]) ++ [['}']]) := by
    unfold serializeText
    rw [hserLines, splitOnChar_joinWith hlinesnl (by simp)]
    have hid : ∀ l ∈ headerLine et k :: ((ps'.map (fun p => mkFieldLine p.1 p.2 true) ++
        [mkFieldLine pl.1 pl.2 false]) ++ [['}']]), pyRstrip l wsChars = l := by
      intro l hl
      rcases List.mem_cons.mp hl with hl | hl
      · subst hl
        exact pyRstrip_ws_headerLine et k
      rcases List.mem_append.mp hl with hl | hl
      · rcases List.mem_append.mp hl with hl | hl
        · rcases List.mem_map.mp hl with ⟨p, _, hpe⟩
          subst hpe
          exact pyRstrip_ws_mkFieldLine p.1 p.2 true
        · rw [List.mem_singleton.mp hl]
          exact pyRstrip_ws_mkFieldLine pl.1 pl.2 false
      · rw [List.mem_singleton.mp hl]
        decide
    rw [List.map_congr_left hid, List.map_id']
  refine ⟨insertR (insertAll [] pairs) etKey et, ?_, ?_⟩
  · -- running the machine over the serialized lines
    unfold importParse
    rw [hsplit]
    unfold parseLines
    rw [List.foldl_cons, pstep_header het hk,
      show flushPending initPState = [] from rfl, List.foldl_append]
    have hlines : (ps'.map (fun p => mkFieldLine p.1 p.2 true) ++
        [mkFieldLine pl.1 pl.2 false]) =
        ((ps'.map (fun p => (p, true)) ++ [(pl, false)]).map
          (fun x => mkFieldLine x.1.1 x.1.2 x.2)) := by
      rw [List.map_append, List.map_map]
      rfl
    rw [hlines, foldl_pstep_fieldLines _ _ rfl ?goodall]
    case goodall =>
      intro x hx
      rcases List.mem_append.mp hx with hx | hx
      · rcases List.mem_map.mp hx with ⟨p, hp, hpe⟩
        subst hpe
        exact hps'good p hp
      · rw [List.mem_singleton.mp hx]
        exact hplgood
    have hproj : ((ps'.map (fun p => (p, true)) ++ [(pl, false)]).map (fun x => x.1)) =
        pairs := by
      rw [hdec]
      simp only [List.map_append, List.map_map, List.map_cons, List.map_nil]
      rw [show ((fun x : (Str × Str) × Bool => x.1) ∘ fun p : Str × Str => (p, true)) =
          (fun p : Str × Str => p) from rfl, List.map_id']
    rw [hproj]
    rw [show ∀ st : PState, List.foldl pstep st [['}']] = pstep st ['}'] from
      fun st => by rw [List.foldl_cons, List.foldl_nil]]
    rw [pstep_close rfl]
    have haccne : insertAll [] pairs ≠ [] := insertAll_ne_nil pairs [] (Or.inr hpne)
    have hflush : flushPending
        (⟨[], insertAll [] pairs, some k, some et, true⟩ : PState) =
        [(k, insertR (insertAll [] pairs) etKey et)] := by
      show (if insertAll [] pairs = [] ∨ k = [] then ([] : List (Str × Rcd))
          else [] ++ [(k, insertR (insertAll [] pairs) etKey
            ((some et : Option Str).getD "None".data))]) =
        [(k, insertR (insertAll [] pairs) etKey et)]
      rw [if_neg (not_or.mpr ⟨haccne, hkne⟩)]
      rfl
    exact hflush
  · -- the lookup characterization
    intro g
    rw [lookupR_insertR]
    by_cases hg : g = etKey
    · rw [if_pos hg, if_pos hg]
    · rw [if_neg hg, if_neg hg]
      by_cases hfo : g ∈ fo
      · rw [if_pos hfo]
        rcases hlk : lookupR entry g with _ | v
        · rw [lookupR_insertAll_of_not_mem]
          · rfl
          · intro p hp hpg
            obtain ⟨_, hlkp⟩ := hpairs_mem p hp
            rw [hpg, hlk] at hlkp
            cases hlkp
        · apply lookupR_insertAll_of_agree
          · intro p hp hpg
            obtain ⟨_, hlkp⟩ := hpairs_mem p hp
            rw [hpg, hlk] at hlkp
            injection hlkp with hlkp
            exact hlkp.symm
          · exact ⟨(g, v), hmem_pairs g v hfo hlk, rfl⟩
      · rw [if_neg hfo, lookupR_insertAll_of_not_mem]
        · rfl
        · intro p hp hpg
          exact hfo (hpg ▸ (hpairs_mem p hp).1)

/-- C1 counterexample: the round trip is not the identity on all records —
a value enclosed in braces loses them, because the parser's `strip('{}')`
removes every leading and trailing brace: serializing `title = {X}` and
parsing back yields `title = X`, not field-for-field equality. -/
theorem round_trip_loses_braces :
    importParse (serializeText "article".data "k1".data
        [("title".data, ['{', 'X', '}'])] ["title".data]) =
      [("k1".data, [("title".data, ['X']), (etKey, "article".data)])] ∧
      lookupR [("title".data, ['X']), (etKey, "article".data)] "title".data ≠
        some ['{', 'X', '}'] := by decide

/-- C1 witness: a concrete well-formed record round-trips. -/
theorem serialize_parse_round_trip_witness :
    ∃ r : Rcd, importParse (serializeText "article".data "k1".data
        [("title".data, "Foo".data)] ["title".data]) = [("k1".data, r)] ∧
      ∀ g : Str, lookupR r g =
        (if g = etKey then some "article".data
         else if g ∈ ["title".data] then lookupR [("title".data, "Foo".data)] g
         else none) :=
  serialize_parse_round_trip "article".data "k1".data [("title".data, "Foo".data)]
    ["title".data] (by decide) (by decide) (by decide) (by decide)
